import Mathlib

/-!
# Verification of the CW Fistcheck Morse-timing core

A shallow embedding, over `ℚ`, of the timing core of the CW Fistcheck
practice tool:

* `textToIdealTiming` — the ideal-timing synthesizer
  (`src/utils/morseUtils.ts`, `textToIdealTiming`);
* `detectCommand` — the trailing dash/dot/dash "go-ahead" detector
  (`src/utils/morseUtils.ts`, `detectCommand`);
* `processSample` / `processBlock` / `runSession` — the per-sample envelope
  follower and on/off interval accumulator of the audio keyer
  (`src/hooks/useAudioKeyer.ts`, `scriptNode.onaudioprocess`);
* `shouldAutoStop` — the silence auto-pause condition (`updateUI`);
* `stopCommit` — the final-segment commit on stop (`stopListening`);
* `alignSignals` — the first-ON alignment shift
  (`src/components/Timeline.tsx`, `alignedUserSignals`).

All JavaScript numbers are modelled as rationals; the `'on'`/`'off'` state
strings are modelled as `Bool` (`true` = `'on'`).
-/

namespace CWFistcheck

/-- `SignalInterval` from `src/types.ts`: a tone (`state = true`) or silence
(`state = false`) span. -/
structure SignalInterval where
  startTime : ℚ
  duration : ℚ
  state : Bool
deriving DecidableEq, Repr

/-- `MORSE_MAP` from `src/constants.ts`, code strings as lists of symbol
characters (`'.'` dot, `'-'` dash; `' '` maps to the `'/'` word marker, which
`textToIdealTiming` never consults because it handles `' '` first). -/
def MORSE_MAP : Char → Option (List Char)
  | 'A' => some ['.', '-']
  | 'B' => some ['-', '.', '.', '.']
  | 'C' => some ['-', '.', '-', '.']
  | 'D' => some ['-', '.', '.']
  | 'E' => some ['.']
  | 'F' => some ['.', '.', '-', '.']
  | 'G' => some ['-', '-', '.']
  | 'H' => some ['.', '.', '.', '.']
  | 'I' => some ['.', '.']
  | 'J' => some ['.', '-', '-', '-']
  | 'K' => some ['-', '.', '-']
  | 'L' => some ['.', '-', '.', '.']
  | 'M' => some ['-', '-']
  | 'N' => some ['-', '.']
  | 'O' => some ['-', '-', '-']
  | 'P' => some ['.', '-', '-', '.']
  | 'Q' => some ['-', '-', '.', '-']
  | 'R' => some ['.', '-', '.']
  | 'S' => some ['.', '.', '.']
  | 'T' => some ['-']
  | 'U' => some ['.', '.', '-']
  | 'V' => some ['.', '.', '.', '-']
  | 'W' => some ['.', '-', '-']
  | 'X' => some ['-', '.', '.', '-']
  | 'Y' => some ['-', '.', '-', '-']
  | 'Z' => some ['-', '-', '.', '.']
  | '1' => some ['.', '-', '-', '-', '-']
  | '2' => some ['.', '.', '-', '-', '-']
  | '3' => some ['.', '.', '.', '-', '-']
  | '4' => some ['.', '.', '.', '.', '-']
  | '5' => some ['.', '.', '.', '.', '.']
  | '6' => some ['-', '.', '.', '.', '.']
  | '7' => some ['-', '-', '.', '.', '.']
  | '8' => some ['-', '-', '-', '.', '.']
  | '9' => some ['-', '-', '-', '-', '.']
  | '0' => some ['-', '-', '-', '-', '-']
  | '.' => some ['.', '-', '.', '-', '.', '-']
  | ',' => some ['-', '-', '.', '.', '-', '-']
  | '?' => some ['.', '.', '-', '-', '.', '.']
  | '\'' => some ['.', '-', '-', '-', '-', '.']
  | '!' => some ['-', '.', '-', '.', '-', '-']
  | '/' => some ['-', '.', '.', '-', '.']
  | '(' => some ['-', '.', '-', '-', '.']
  | ')' => some ['-', '.', '-', '-', '.', '-']
  | '&' => some ['.', '-', '.', '.', '.']
  | ':' => some ['-', '-', '-', '.', '.', '.']
  | ';' => some ['-', '.', '-', '.', '-', '.']
  | '=' => some ['-', '.', '.', '.', '-']
  | '+' => some ['.', '-', '.', '-', '.']
  | '-' => some ['-', '.', '.', '.', '.', '-']
  | '_' => some ['.', '.', '-', '-', '.', '-']
  | '"' => some ['.', '-', '.', '.', '-', '.']
  | '$' => some ['.', '.', '.', '-', '.', '.', '-']
  | '@' => some ['.', '-', '-', '.', '-', '.']
  | ' ' => some ['/']
  | _ => none

/-- `calculateDotLength` from `src/constants.ts`: dot length in milliseconds. -/
def calculateDotLength (wpm : ℚ) : ℚ := 1200 / wpm

/-- The character class of the cleaning regex
`[^A-Z0-9 .,?'!/()&:;=+_"$@-]` in `textToIdealTiming`. -/
def allowedChar (c : Char) : Bool :=
  ('A' ≤ c ∧ c ≤ 'Z') ∨ ('0' ≤ c ∧ c ≤ '9') ∨
    c ∈ [' ', '.', ',', '?', '\'', '!', '/', '(', ')', '&', ':', ';', '=',
      '+', '_', '"', '$', '@', '-']

/-- `text.toUpperCase().replace(/[^A-Z0-9 .,?'!/()&:;=+_"$@-]/g, ' ')`. -/
def cleanText (text : List Char) : List Char :=
  text.map fun c => if allowedChar c.toUpper then c.toUpper else ' '

/-- The inner `for j` loop of `textToIdealTiming`: emit one ON interval per
symbol (1 unit for a dot, 3 for a dash) with a 1-unit OFF gap between
consecutive symbols of the same character. -/
def emitSymbols (dot : ℚ) :
    List Char → List SignalInterval → ℚ → List SignalInterval × ℚ
  | [], ints, t => (ints, t)
  | [s], ints, t =>
      let d := if s = '.' then dot else 3 * dot
      (ints ++ [⟨t, d, true⟩], t + d)
  | s :: s₂ :: rest, ints, t =>
      let d := if s = '.' then dot else 3 * dot
      emitSymbols dot (s₂ :: rest)
        (ints ++ [⟨t, d, true⟩, ⟨t + d, dot, false⟩]) (t + d + dot)

/-- The outer `for i` loop of `textToIdealTiming`: a word space extends the
trailing OFF interval by 4 units (when one exists); a mapped character emits
its symbols followed by a 3-unit inter-character OFF gap; an unmapped
character is skipped. -/
def timingLoop (dot : ℚ) :
    List Char → List SignalInterval → ℚ → List SignalInterval × ℚ
  | [], ints, t => (ints, t)
  | c :: rest, ints, t =>
      if c = ' ' then
        match ints.getLast? with
        | some l =>
            if l.state = false then
              timingLoop dot rest
                (ints.dropLast ++ [⟨l.startTime, l.duration + 4 * dot, false⟩])
                (t + 4 * dot)
            else
              timingLoop dot rest ints t
        | none => timingLoop dot rest ints t
      else
        match MORSE_MAP c with
        | none => timingLoop dot rest ints t
        | some code =>
            let p := emitSymbols dot code ints t
            timingLoop dot rest (p.1 ++ [⟨p.2, 3 * dot, false⟩]) (p.2 + 3 * dot)

/-- `textToIdealTiming` from `src/utils/morseUtils.ts`. -/
def textToIdealTiming (text : List Char) (wpm : ℚ) : List SignalInterval :=
  let dotMs := calculateDotLength wpm / 1000
  (timingLoop dotMs (cleanText text) [] 0).1

/-- `detectCommand` from `src/utils/morseUtils.ts`: recognizes a trailing
dash/dot/dash among the last three ON intervals (for the default command
character `'K'`, code `-.-`). -/
def detectCommand (signals : List SignalInterval) (wpm : ℚ)
    (commandChar : Char := 'K') : Bool :=
  if signals.length < 3 then false
  else
    let dotMs := calculateDotLength wpm / 1000
    let dotMax := dotMs * 2
    let dahMin := dotMs * 2
    let onSignals := signals.filter (·.state)
    if onSignals.length < 3 then false
    else
      match onSignals.drop (onSignals.length - 3) with
      | [a, b, c] =>
          if MORSE_MAP commandChar = some ['-', '.', '-'] ∧
              a.duration > dahMin ∧ b.duration < dotMax ∧ c.duration > dahMin
          then true else false
      | _ => false

/-- `alignedUserSignals` from `src/components/Timeline.tsx`: shift every
displayed interval by the offset between the first ON intervals of the two
sequences; empty when either sequence has no ON interval. -/
def alignSignals (idealSignals displaySignals : List SignalInterval) :
    List SignalInterval :=
  match idealSignals.find? (·.state), displaySignals.find? (·.state) with
  | some firstIdeal, some firstUser =>
      let shift := firstIdeal.startTime - firstUser.startTime
      displaySignals.map fun s => ⟨s.startTime + shift, s.duration, s.state⟩
  | _, _ => []

/-- The auto-pause condition of `updateUI` in `src/hooks/useAudioKeyer.ts`:
listening, not currently ON, at least one committed interval, and more than
5 s of silence since the last change. -/
def shouldAutoStop (isListening isSignalOn : Bool)
    (signals : List SignalInterval) (startTime lastChangeTime now : ℚ) : Bool :=
  isListening ∧ ¬isSignalOn ∧
    signals.length > 0 ∧ max 0 (now - startTime) - lastChangeTime > 5

/-- The final-segment commit of `stopListening` in
`src/hooks/useAudioKeyer.ts`: append the still-open segment when it lasted
more than 10 ms. -/
def stopCommit (signals : List SignalInterval) (isSignalOn : Bool)
    (startTime lastChangeTime now : ℚ) : List SignalInterval :=
  let relativeNow := max 0 (now - startTime)
  let duration := relativeNow - lastChangeTime
  if duration > 1 / 100 then
    signals ++ [⟨lastChangeTime, duration, isSignalOn⟩]
  else signals

/-- The audio-processing state of `useAudioKeyer`: committed intervals
(`signalsRef`), stable on/off state (`isSignalOnRef` / the block-local
`signalState`), `lastChangeTimeRef` and the envelope `smoothedEnvRef`. -/
structure KeyerState where
  signals : List SignalInterval
  signalState : Bool
  lastChangeTime : ℚ
  env : ℚ
deriving DecidableEq, Repr

/-- The state installed by `startListening` (and by `resetSignals`). -/
def initState : KeyerState := ⟨[], false, 0, 0⟩

/-- The envelope follower: fast attack (`0.6·E + 0.4·|x|`), slow decay
(`0.98·E`). -/
def envFollow (env absVal : ℚ) : ℚ :=
  if absVal > env then env * (3 / 5) + absVal * (2 / 5) else env * (49 / 50)

/-- One iteration of the `for i` sample loop of `scriptNode.onaudioprocess`:
update the envelope, then run the hysteresis state machine with the 15 ms
debounce / glitch-merge rules, at relative sample time `t`. -/
def processSample (th t sample : ℚ) (σ : KeyerState) : KeyerState :=
  let env := envFollow σ.env |sample|
  let lowerTh := th * (3 / 5)
  if ¬σ.signalState ∧ env > th then
    let gap := t - σ.lastChangeTime
    if gap < 3 / 200 ∧ σ.signals ≠ [] then
      match σ.signals.getLast? with
      | some l =>
          { signals := σ.signals.dropLast
            signalState := true
            lastChangeTime := if l.state then l.startTime else σ.lastChangeTime
            env := env }
      | none => { σ with signalState := true, env := env }
    else
      { signals :=
          if σ.signals ≠ [] ∨ σ.lastChangeTime > 0 then
            σ.signals ++ [⟨σ.lastChangeTime, gap, false⟩]
          else σ.signals
        signalState := true
        lastChangeTime := t
        env := env }
  else if σ.signalState ∧ env < lowerTh then
    let gap := t - σ.lastChangeTime
    if gap < 3 / 200 then
      match σ.signals.getLast? with
      | some l =>
          if l.state = false then
            { signals := σ.signals.dropLast
              signalState := false
              lastChangeTime := l.startTime
              env := env }
          else { σ with signalState := false, env := env }
      | none => { σ with signalState := false, env := env }
    else
      { signals := σ.signals ++ [⟨σ.lastChangeTime, gap, true⟩]
        signalState := false
        lastChangeTime := t
        env := env }
  else { σ with env := env }

/-- One `onaudioprocess` callback: fold `processSample` over the block's
samples, sample `i` at relative time
`max 0 (bufferStartTime + i / sampleRate - sessionStart)`. -/
def processBlock (th sessionStart sampleRate bufferStartTime : ℚ)
    (samples : List ℚ) (σ : KeyerState) : KeyerState :=
  samples.enum.foldl
    (fun s p =>
      processSample th
        (max 0 (bufferStartTime + (p.1 : ℚ) / sampleRate - sessionStart))
        p.2 s) σ

/-- A whole capture session: process a list of blocks, each a pair of its
`playbackTime` and its samples, from the freshly initialized state. -/
def runSession (th sessionStart sampleRate : ℚ)
    (blocks : List (ℚ × List ℚ)) : KeyerState :=
  blocks.foldl (fun σ b => processBlock th sessionStart sampleRate b.1 b.2 σ)
    initState

/-- Consecutive intervals have strictly alternating on/off state. -/
def Alternating (l : List SignalInterval) : Prop :=
  l.Chain' fun a b => a.state ≠ b.state

/-- Each interval starts where the previous one ends. -/
def Contiguous (l : List SignalInterval) : Prop :=
  l.Chain' fun a b => b.startTime = a.startTime + a.duration

/-- The total duration of a sequence of intervals. -/
def totalDuration (l : List SignalInterval) : ℚ :=
  (l.map (·.duration)).sum

/-- The state invariant maintained by the audio keyer: committed intervals
alternate and are contiguous, and when any interval is committed the latest
one has the opposite state of the pending state, ending exactly at
`lastChangeTime`. -/
def KeyerInv (σ : KeyerState) : Prop :=
  Alternating σ.signals ∧ Contiguous σ.signals ∧
  ∀ l, σ.signals.getLast? = some l →
    l.state = !σ.signalState ∧ σ.lastChangeTime = l.startTime + l.duration

/-- The loop invariant of `textToIdealTiming`: the emitted intervals
alternate, are contiguous, start with an ON interval at time 0, and the
running clock equals the end of the last emitted interval (0 when none). -/
def TimingInv (ints : List SignalInterval) (t : ℚ) : Prop :=
  Alternating ints ∧ Contiguous ints ∧
  (∀ a, ints.head? = some a → a.state = true ∧ a.startTime = 0) ∧
  (ints = [] → t = 0) ∧
  ∀ b, ints.getLast? = some b → b.startTime + b.duration = t

/-- Between characters, the trailing interval (when any) is an OFF gap of
duration `3u + 4u·k` — an inter-character gap extended by `k` word spaces. -/
def OffTail (dot : ℚ) (l : List SignalInterval) : Prop :=
  ∀ b, l.getLast? = some b →
    b.state = false ∧ ∃ k : ℕ, b.duration = 3 * dot + 4 * dot * (k : ℚ)

theorem alternating_append {l : List SignalInterval} {i : SignalInterval}
    (h : Alternating l)
    (hl : ∀ x, l.getLast? = some x → x.state ≠ i.state) :
    Alternating (l ++ [i]) := by
  unfold Alternating at *
  rw [List.chain'_append]
  refine ⟨h, List.chain'_singleton _, ?_⟩
  intro x hx y hy
  simp only [List.head?_cons, Option.mem_def, Option.some.injEq] at hy
  subst hy
  exact hl x hx

theorem contiguous_append {l : List SignalInterval} {i : SignalInterval}
    (h : Contiguous l)
    (hl : ∀ x, l.getLast? = some x → i.startTime = x.startTime + x.duration) :
    Contiguous (l ++ [i]) := by
  unfold Contiguous at *
  rw [List.chain'_append]
  refine ⟨h, List.chain'_singleton _, ?_⟩
  intro x hx y hy
  simp only [List.head?_cons, Option.mem_def, Option.some.injEq] at hy
  subst hy
  exact hl x hx

theorem chain'_rel_dropLast {R : SignalInterval → SignalInterval → Prop}
    {l : List SignalInterval} {a b : SignalInterval}
    (h : l.Chain' R) (ha : l.getLast? = some a)
    (hb : l.dropLast.getLast? = some b) : R b a := by
  have hsplit := List.dropLast_append_getLast? a ha
  rw [← hsplit] at h
  have h2 := (List.chain'_append.mp h).2.2
  exact h2 b hb a (by simp)

theorem contiguous_totalDuration :
    ∀ {l : List SignalInterval}, Contiguous l →
      ∀ a, l.head? = some a → ∀ b, l.getLast? = some b →
        b.startTime + b.duration = a.startTime + totalDuration l := by
  intro l
  induction l with
  | nil => intro _ a ha; exact absurd ha (by simp)
  | cons z zs ih =>
    intro hC a ha b hb
    simp only [List.head?_cons, Option.some.injEq] at ha
    cases zs with
    | nil =>
        simp only [List.getLast?_singleton, Option.some.injEq] at hb
        rw [← ha, ← hb]
        simp [totalDuration]
    | cons z₂ zs₂ =>
        have hCC := List.chain'_cons.mp hC
        have h12 : z₂.startTime = z.startTime + z.duration := hCC.1
        have hb' : (z₂ :: zs₂).getLast? = some b := by
          rwa [List.getLast?_cons_cons] at hb
        have hrec := ih hCC.2 z₂ rfl b hb'
        rw [hrec, h12, ← ha]
        simp only [totalDuration, List.map_cons, List.sum_cons]
        ring

theorem processSample_inv (th t x : ℚ) (σ : KeyerState) (h : KeyerInv σ) :
    KeyerInv (processSample th t x σ) := by
  obtain ⟨hA, hC, hL⟩ := h
  unfold processSample
  by_cases h1 : ¬σ.signalState ∧ envFollow σ.env |x| > th
  · rw [if_pos h1]
    have hs : σ.signalState = false := by
      cases hb : σ.signalState
      · rfl
      · exact absurd hb h1.1
    by_cases h2 : t - σ.lastChangeTime < 3 / 200 ∧ σ.signals ≠ []
    · rw [if_pos h2]
      rcases hg : σ.signals.getLast? with _ | l
      · dsimp only
        refine ⟨hA, hC, fun l' hl' => ?_⟩
        rw [hg] at hl'
        exact Option.noConfusion hl'
      · dsimp only
        have hlf := hL l hg
        rw [hs] at hlf
        have hlf1 : l.state = true := by simpa using hlf.1
        rw [if_pos hlf1]
        refine ⟨hA.init, hC.init, fun l' hl' => ?_⟩
        dsimp only at hl'
        have hrelA := chain'_rel_dropLast hA hg hl'
        have hrelC := chain'_rel_dropLast hC hg hl'
        refine ⟨?_, hrelC⟩
        have h5 : l'.state ≠ l.state := hrelA
        rw [hlf1] at h5
        revert h5
        cases l'.state <;> simp
    · rw [if_neg h2]
      by_cases hp : σ.signals ≠ [] ∨ σ.lastChangeTime > 0
      · rw [if_pos hp]
        refine ⟨?_, ?_, ?_⟩
        · refine alternating_append hA fun y hy => ?_
          rw [(hL y hy).1, hs]
          simp
        · exact contiguous_append hC fun y hy => (hL y hy).2
        · intro l' hl'
          dsimp only at hl'
          rw [List.getLast?_concat] at hl'
          cases hl'
          exact ⟨by simp, by ring⟩
      · rw [if_neg hp]
        push_neg at hp
        refine ⟨hA, hC, fun l' hl' => ?_⟩
        dsimp only at hl'
        rw [hp.1] at hl'
        exact Option.noConfusion hl'
  · rw [if_neg h1]
    by_cases h3 : σ.signalState ∧ envFollow σ.env |x| < th * (3 / 5)
    · rw [if_pos h3]
      have hs : σ.signalState = true := h3.1
      by_cases h4 : t - σ.lastChangeTime < 3 / 200
      · rw [if_pos h4]
        rcases hg : σ.signals.getLast? with _ | l
        · dsimp only
          refine ⟨hA, hC, fun l' hl' => ?_⟩
          rw [hg] at hl'
          exact Option.noConfusion hl'
        · dsimp only
          have hlf := hL l hg
          rw [hs] at hlf
          have hlf1 : l.state = false := by simpa using hlf.1
          rw [if_pos hlf1]
          refine ⟨hA.init, hC.init, fun l' hl' => ?_⟩
          dsimp only at hl'
          have hrelA := chain'_rel_dropLast hA hg hl'
          have hrelC := chain'_rel_dropLast hC hg hl'
          refine ⟨?_, hrelC⟩
          have h5 : l'.state ≠ l.state := hrelA
          rw [hlf1] at h5
          revert h5
          cases l'.state <;> simp
      · rw [if_neg h4]
        refine ⟨?_, ?_, ?_⟩
        · refine alternating_append hA fun y hy => ?_
          rw [(hL y hy).1, hs]
          simp
        · exact contiguous_append hC fun y hy => (hL y hy).2
        · intro l' hl'
          dsimp only at hl'
          rw [List.getLast?_concat] at hl'
          cases hl'
          exact ⟨by simp, by ring⟩
    · rw [if_neg h3]
      exact ⟨hA, hC, hL⟩

theorem foldl_keyerInv {α : Type} {f : KeyerState → α → KeyerState}
    (hf : ∀ σ a, KeyerInv σ → KeyerInv (f σ a)) :
    ∀ (l : List α) (σ : KeyerState), KeyerInv σ → KeyerInv (l.foldl f σ)
  | [], _, h => h
  | a :: l, σ, h => foldl_keyerInv hf l (f σ a) (hf σ a h)

theorem timingInv_push_on {ints : List SignalInterval} {t : ℚ} (d : ℚ)
    (hTI : TimingInv ints t)
    (hOff : ∀ b, ints.getLast? = some b → b.state = false) :
    TimingInv (ints ++ [(⟨t, d, true⟩ : SignalInterval)]) (t + d) ∧
    ints ++ [(⟨t, d, true⟩ : SignalInterval)] ≠ [] ∧
    ∀ b, (ints ++ [(⟨t, d, true⟩ : SignalInterval)]).getLast? = some b →
      b.state = true := by
  obtain ⟨hA, hC, hH, hE, hLa⟩ := hTI
  unfold TimingInv
  refine ⟨⟨?_, ?_, ?_, by simp, ?_⟩, by simp, ?_⟩
  · refine alternating_append hA fun y hy => ?_
    rw [hOff y hy]
    simp
  · exact contiguous_append hC fun y hy => (hLa y hy).symm
  · intro a ha
    cases ints with
    | nil =>
        simp only [List.nil_append, List.head?_cons, Option.some.injEq] at ha
        rw [← ha]
        exact ⟨rfl, hE rfl⟩
    | cons z zs =>
        simp only [List.cons_append, List.head?_cons, Option.some.injEq] at ha
        rw [← ha]
        exact hH z (by simp)
  · intro b hb
    rw [List.getLast?_concat] at hb
    cases hb
    rfl
  · intro b hb
    rw [List.getLast?_concat] at hb
    cases hb
    rfl

theorem timingInv_push_off {ints : List SignalInterval} {t : ℚ} (d : ℚ)
    (hTI : TimingInv ints t)
    (hOn : ∀ b, ints.getLast? = some b → b.state = true)
    (hne : ints ≠ []) :
    TimingInv (ints ++ [(⟨t, d, false⟩ : SignalInterval)]) (t + d) ∧
    ∀ b, (ints ++ [(⟨t, d, false⟩ : SignalInterval)]).getLast? = some b →
      b.state = false := by
  obtain ⟨hA, hC, hH, hE, hLa⟩ := hTI
  unfold TimingInv
  refine ⟨⟨?_, ?_, ?_, by simp, ?_⟩, ?_⟩
  · refine alternating_append hA fun y hy => ?_
    rw [hOn y hy]
    simp
  · exact contiguous_append hC fun y hy => (hLa y hy).symm
  · intro a ha
    cases ints with
    | nil => exact absurd rfl hne
    | cons z zs =>
        simp only [List.cons_append, List.head?_cons, Option.some.injEq] at ha
        rw [← ha]
        exact hH z (by simp)
  · intro b hb
    rw [List.getLast?_concat] at hb
    cases hb
    rfl
  · intro b hb
    rw [List.getLast?_concat] at hb
    cases hb
    rfl

theorem emitSymbols_spec (dot : ℚ) :
    ∀ (code : List Char) (ints : List SignalInterval) (t : ℚ),
      code ≠ [] → TimingInv ints t →
      (∀ b, ints.getLast? = some b → b.state = false) →
      TimingInv (emitSymbols dot code ints t).1 (emitSymbols dot code ints t).2 ∧
      (emitSymbols dot code ints t).1 ≠ [] ∧
      ∀ b, (emitSymbols dot code ints t).1.getLast? = some b →
        b.state = true := by
  intro code
  induction code with
  | nil => intro ints t hne; exact absurd rfl hne
  | cons s tail ih =>
    intro ints t _ hTI hOff
    cases tail with
    | nil =>
        rw [emitSymbols]
        exact timingInv_push_on _ hTI hOff
    | cons s₂ rest =>
        rw [emitSymbols]
        have heq : ints ++ [⟨t, if s = '.' then dot else 3 * dot, true⟩,
            ⟨t + (if s = '.' then dot else 3 * dot), dot, false⟩] =
            (ints ++ [⟨t, if s = '.' then dot else 3 * dot, true⟩]) ++
              [⟨t + (if s = '.' then dot else 3 * dot), dot, false⟩] := by
          simp
        rw [heq]
        have h1 := timingInv_push_on (if s = '.' then dot else 3 * dot) hTI hOff
        have h2 := timingInv_push_off dot h1.1 h1.2.2 h1.2.1
        exact ih _ _ (by simp) h2.1 h2.2

theorem MORSE_MAP_ne_nil (c : Char) (code : List Char)
    (h : MORSE_MAP c = some code) : code ≠ [] := by
  unfold MORSE_MAP at h
  split at h
  all_goals intro hc
  all_goals subst hc
  all_goals simp at h

theorem timingLoop_spec (dot : ℚ) :
    ∀ (cs : List Char) (ints : List SignalInterval) (t : ℚ),
      TimingInv ints t → OffTail dot ints →
      TimingInv (timingLoop dot cs ints t).1 (timingLoop dot cs ints t).2 ∧
      OffTail dot (timingLoop dot cs ints t).1 := by
  intro cs
  induction cs with
  | nil => intro ints t hTI hOT; exact ⟨hTI, hOT⟩
  | cons c rest ih =>
    intro ints t hTI hOT
    rw [timingLoop]
    by_cases hc : c = ' '
    · rw [if_pos hc]
      rcases hg : ints.getLast? with _ | l
      · dsimp only
        exact ih ints t hTI hOT
      · dsimp only
        obtain ⟨hstate, k, hdur⟩ := hOT l hg
        rw [if_pos hstate]
        obtain ⟨hA, hC, hH, hE, hLa⟩ := hTI
        have hsplit := List.dropLast_append_getLast? l hg
        have hend : l.startTime + l.duration = t := hLa l hg
        refine ih _ _ ?_ ?_
        · unfold TimingInv
          refine ⟨?_, ?_, ?_, by simp, ?_⟩
          · refine alternating_append hA.init fun y hy => ?_
            have h5 := chain'_rel_dropLast hA hg hy
            rw [hstate] at h5
            exact h5
          · refine contiguous_append hC.init fun y hy => ?_
            have h6 := chain'_rel_dropLast hC hg hy
            exact h6
          · intro a ha
            rcases hd : ints.dropLast with _ | ⟨z, zs⟩
            · rw [hd] at hsplit
              rw [hd] at ha
              simp only [List.nil_append, List.head?_cons,
                Option.some.injEq] at ha
              have hhead := hH l (by rw [← hsplit]; simp)
              exact absurd hhead.1 (by simp [hstate])
            · rw [hd] at ha
              simp only [List.cons_append, List.head?_cons,
                Option.some.injEq] at ha
              rw [← ha]
              exact hH z (by rw [← hsplit, hd]; simp)
          · intro b hb
            rw [List.getLast?_concat] at hb
            cases hb
            dsimp only
            rw [← hend]
            ring
        · intro b hb
          rw [List.getLast?_concat] at hb
          cases hb
          refine ⟨rfl, k + 1, ?_⟩
          dsimp only
          rw [hdur]
          push_cast
          ring
    · rw [if_neg hc]
      rcases hm : MORSE_MAP c with _ | code
      · dsimp only
        exact ih ints t hTI hOT
      · dsimp only
        have hcode := MORSE_MAP_ne_nil c code hm
        have h1 := emitSymbols_spec dot code ints t hcode hTI
          (fun b hb => (hOT b hb).1)
        have h2 := timingInv_push_off (3 * dot) h1.1 h1.2.2 h1.2.1
        refine ih _ _ h2.1 ?_
        intro b hb
        rw [List.getLast?_concat] at hb
        cases hb
        exact ⟨rfl, 0, by simp⟩

/-- Claim C1: for every sequence of processed audio sample blocks in a
capture session, the committed interval list satisfies the `SignalInterval`
sequence invariant: consecutive committed intervals strictly alternate
on/off state, and each committed interval starts where the previous one
ends. -/

theorem claim1_session_intervals_alternating_contiguous (th sessionStart sampleRate : ℚ)
    (blocks : List (ℚ × List ℚ)) :
    Alternating (runSession th sessionStart sampleRate blocks).signals ∧
    Contiguous (runSession th sessionStart sampleRate blocks).signals := by
  have hinit : KeyerInv initState := by
    refine ⟨List.chain'_nil, List.chain'_nil, ?_⟩
    intro l hl
    exact absurd hl (by simp [initState])
  have h : KeyerInv (runSession th sessionStart sampleRate blocks) := by
    unfold runSession
    refine foldl_keyerInv ?_ blocks initState hinit
    intro σ b hb
    unfold processBlock
    exact foldl_keyerInv (fun σ' p h' => processSample_inv _ _ _ _ h') _ _ hb
  exact ⟨h.1, h.2.1⟩

/-- Claim C2: an ON pulse shorter than 15 ms surrounded by OFF periods is
never committed as a separate interval: the ON→OFF debounce pops the prior
committed OFF interval and restores `lastChangeTime` to its start (reopening
it rather than adding a new interval), and the next valid OFF→ON transition
commits a single continuous OFF interval spanning from the prior OFF's start
across the glitch. -/

theorem claim2_glitch_pulse_merged (th t t' x x' : ℚ) (σ : KeyerState) (l : SignalInterval)
    (hOn : σ.signalState = true)
    (hLast : σ.signals.getLast? = some l)
    (hOff : l.state = false)
    (_hPulseStart : σ.lastChangeTime = l.startTime + l.duration)
    (hEnv1 : envFollow σ.env |x| < th * (3 / 5))
    (hShort : t - σ.lastChangeTime < 3 / 200)
    (hEnv2 : envFollow (envFollow σ.env |x|) |x'| > th)
    (hGap : t' - l.startTime ≥ 3 / 200)
    (hPrior : σ.signals.dropLast ≠ [] ∨ l.startTime > 0) :
    (processSample th t x σ).signals = σ.signals.dropLast ∧
    (processSample th t x σ).lastChangeTime = l.startTime ∧
    (processSample th t x σ).signalState = false ∧
    (processSample th t' x' (processSample th t x σ)).signals =
      σ.signals.dropLast ++ [⟨l.startTime, t' - l.startTime, false⟩] ∧
    (processSample th t' x' (processSample th t x σ)).signalState = true := by
  have hstep1 : processSample th t x σ =
      { signals := σ.signals.dropLast
        signalState := false
        lastChangeTime := l.startTime
        env := envFollow σ.env |x| } := by
    unfold processSample
    rw [if_neg (fun hcon => hcon.1 hOn), if_pos ⟨hOn, hEnv1⟩, if_pos hShort,
      hLast]
    dsimp only
    rw [if_pos hOff]
  refine ⟨by rw [hstep1], by rw [hstep1], by rw [hstep1], ?_, ?_⟩ <;>
    rw [hstep1]
  · unfold processSample
    dsimp only
    rw [if_pos ⟨by simp, hEnv2⟩,
      if_neg (fun hcon => absurd hcon.1 (not_lt.mpr hGap)),
      if_pos hPrior]
  · unfold processSample
    dsimp only
    rw [if_pos ⟨by simp, hEnv2⟩,
      if_neg (fun hcon => absurd hcon.1 (not_lt.mpr hGap)),
      if_pos hPrior]

/-- Claim C2 witness: a concrete glitch scenario — committed
`[ON 0–0.1, OFF 0.1–0.2]`, pending ON from 0.2, pulse ends at 0.21 (9 ms),
real ON resumes at 0.3 — yields the merged committed list
`[ON 0–0.1, OFF 0.1–0.3]`. -/

theorem claim2_glitch_pulse_merged_witness :
    (processSample (1/2) (21/100) 0
        ⟨[⟨0, 1/10, true⟩, ⟨1/10, 1/10, false⟩], true, 2/10, 3/10⟩).signals =
      [⟨0, 1/10, true⟩] ∧
    (processSample (1/2) (3/10) 1 (processSample (1/2) (21/100) 0
        ⟨[⟨0, 1/10, true⟩, ⟨1/10, 1/10, false⟩], true, 2/10, 3/10⟩)).signals =
      [⟨0, 1/10, true⟩, ⟨1/10, 1/5, false⟩] := by
  have h := claim2_glitch_pulse_merged (1/2) (21/100) (3/10) 0 1
    ⟨[⟨0, 1/10, true⟩, ⟨1/10, 1/10, false⟩], true, 2/10, 3/10⟩
    ⟨1/10, 1/10, false⟩ rfl rfl rfl (by norm_num)
    (by norm_num [envFollow]) (by norm_num) (by norm_num [envFollow])
    (by norm_num) (by simp)
  refine ⟨?_, ?_⟩
  · rw [h.1]
    rfl
  · rw [h.2.2.2.1]
    norm_num [List.dropLast]

/-- Claim C3 counterexample: at the very first OFF→ON transition after
start (empty committed list, `lastChangeTime = 0`) with gap 20 ms ≥ 15 ms,
the code pushes NO interval (the committed list stays empty) even though the
transition is processed (`lastChangeTime` and the pending state are
updated), contradicting the claim that a `{0, gap, off}` interval is pushed
including at the very first transition. -/

theorem claim3_first_transition_push_counterexample :
    (processSample (3/10) (1/50) 1 initState).signals = [] ∧
    (processSample (3/10) (1/50) 1 initState).signalState = true ∧
    (processSample (3/10) (1/50) 1 initState).lastChangeTime = 1/50 ∧
    (1/50 : ℚ) - initState.lastChangeTime ≥ 15/1000 := by
  norm_num [processSample, envFollow, initState]

/-- Claim C3 (amended): for every transition event at time `t` with
`gap = t − lastChangeTime ≥ 15 ms`, `lastChangeTime` is set to `t` and the
pending state flips; the interval `{lastChangeTime, gap, pendingState}` is
pushed onto the committed list EXCEPT at the very first OFF→ON transition
after start or reset (committed list empty and `lastChangeTime = 0`), where
nothing is pushed. -/

theorem claim3_transition_commit_amended (th t sample : ℚ) (σ : KeyerState)
    (hEnvOn : σ.signalState = true → envFollow σ.env |sample| < th * (3/5))
    (hEnvOff : σ.signalState = false → envFollow σ.env |sample| > th)
    (hGap : t - σ.lastChangeTime ≥ 3/200) :
    (processSample th t sample σ).lastChangeTime = t ∧
    (processSample th t sample σ).signalState = !σ.signalState ∧
    (processSample th t sample σ).signals =
      if σ.signalState = false ∧ σ.signals = [] ∧ ¬σ.lastChangeTime > 0 then
        σ.signals
      else σ.signals ++ [⟨σ.lastChangeTime, t - σ.lastChangeTime, σ.signalState⟩] := by
  cases hs : σ.signalState with
  | false =>
      have he := hEnvOff hs
      unfold processSample
      rw [if_pos ⟨by simp [hs], he⟩,
        if_neg (fun hcon => absurd hcon.1 (not_lt.mpr hGap))]
      refine ⟨rfl, by simp [hs], ?_⟩
      by_cases hp : σ.signals ≠ [] ∨ σ.lastChangeTime > 0
      · rw [if_pos hp, if_neg]
        intro hcon
        rcases hp with h | h
        · exact h hcon.2.1
        · exact hcon.2.2 h
      · push_neg at hp
        rw [if_neg (by simpa using hp), if_pos ⟨rfl, hp.1, not_lt.mpr hp.2⟩]
  | true =>
      have he := hEnvOn hs
      unfold processSample
      rw [if_neg (fun hcon => hcon.1 hs),
        if_pos ⟨hs, he⟩,
        if_neg (not_lt.mpr hGap)]
      refine ⟨rfl, by simp [hs], ?_⟩
      rw [if_neg (fun hcon => by simpa using hcon.1)]

/-- Claim C3 (amended) witness: a valid ON→OFF transition at `t = 0.2` from
a pending ON started at `0.1` commits `{0.1, 0.1, on}`. -/

theorem claim3_transition_commit_amended_witness :
    (processSample (1/2) (2/10) 0 ⟨[], true, 1/10, 3/10⟩).signals =
      [⟨1/10, 1/10, true⟩] ∧
    (processSample (1/2) (2/10) 0 ⟨[], true, 1/10, 3/10⟩).lastChangeTime =
      2/10 ∧
    (processSample (1/2) (2/10) 0 ⟨[], true, 1/10, 3/10⟩).signalState =
      false := by
  have h := claim3_transition_commit_amended (1/2) (2/10) 0
    ⟨[], true, 1/10, 3/10⟩ (fun _ => by norm_num [envFollow])
    (fun hcon => by simp at hcon) (by norm_num)
  refine ⟨?_, h.1, ?_⟩
  · rw [h.2.2]
    norm_num
  · rw [h.2.1]
    rfl

/-- Claim C4: while listening with pending state OFF, the periodic check
stops the session exactly when the silence since the last change exceeds
5 s and at least one interval has been committed; with an empty committed
list, or while the signal is ON, it never stops. -/

theorem claim4_auto_stop_condition (isOn : Bool) (signals : List SignalInterval)
    (startTime lct now : ℚ) (hne : signals ≠ []) :
    (shouldAutoStop true false signals startTime lct now = true ↔
      max 0 (now - startTime) - lct > 5) ∧
    shouldAutoStop true isOn [] startTime lct now = false ∧
    shouldAutoStop true true signals startTime lct now = false := by
  refine ⟨?_, ?_, ?_⟩
  · simp only [shouldAutoStop, decide_eq_true_eq]
    constructor
    · intro h
      exact h.2.2.2
    · intro h
      exact ⟨trivial, by simp, List.length_pos.mpr hne, h⟩
  · simp [shouldAutoStop]
  · simp [shouldAutoStop]

/-- Claim C4 witness: with a committed interval and 5.1 s of silence the
session auto-stops; at 4.9 s it does not. -/

theorem claim4_auto_stop_condition_witness :
    shouldAutoStop true false [⟨0, 1/10, true⟩] 0 0 (51/10) = true ∧
    shouldAutoStop true false [⟨0, 1/10, true⟩] 0 0 (49/10) = false := by
  constructor
  · refine (claim4_auto_stop_condition false [⟨0, 1/10, true⟩] 0 0 (51/10)
      (by simp)).1.mpr ?_
    rw [max_eq_right (by norm_num : (0:ℚ) ≤ 51/10 - 0)]
    norm_num
  · have h := (claim4_auto_stop_condition false [⟨0, 1/10, true⟩] 0 0 (49/10) (by simp)).1
    rw [max_eq_right (by norm_num : (0:ℚ) ≤ 49/10 - 0)] at h
    have h2 : ¬((49:ℚ)/10 - 0 - 0 > 5) := by norm_num
    cases hb : shouldAutoStop true false [⟨0, 1/10, true⟩] 0 0 (49/10)
    · rfl
    · exact absurd (h.mp hb) h2

/-- Claim C5: on stop, the still-open pending segment (state = pending
state, startTime = lastChangeTime, duration = now − lastChangeTime) is
appended to the committed list if and only if its duration exceeds 10 ms;
otherwise the list is unchanged. -/

theorem claim5_stop_commits_final_segment (signals : List SignalInterval) (isOn : Bool)
    (startTime lct now : ℚ) :
    (stopCommit signals isOn startTime lct now =
        signals ++ [⟨lct, max 0 (now - startTime) - lct, isOn⟩] ↔
      max 0 (now - startTime) - lct > 1 / 100) ∧
    (stopCommit signals isOn startTime lct now = signals ↔
      ¬max 0 (now - startTime) - lct > 1 / 100) := by
  unfold stopCommit
  by_cases h : max 0 (now - startTime) - lct > 1 / 100
  · rw [if_pos h]
    refine ⟨⟨fun _ => h, fun _ => rfl⟩, ⟨?_, fun hcon => absurd h hcon⟩⟩
    intro heq
    have hlen := congrArg List.length heq
    simp at hlen
  · rw [if_neg h]
    refine ⟨⟨?_, fun hcon => absurd hcon h⟩, ⟨fun _ => h, fun _ => rfl⟩⟩
    intro heq
    have hlen := congrArg List.length heq
    simp at hlen

/-- Claim C5 witness: a 20 ms open segment is committed on stop; a 5 ms one
is dropped. -/

theorem claim5_stop_commits_final_segment_witness :
    stopCommit [] true 0 0 (2/100) = [⟨0, 2/100, true⟩] ∧
    stopCommit [] true 0 0 (1/200) = [] := by
  constructor
  · have h := (claim5_stop_commits_final_segment [] true 0 0 (2/100)).1.mpr
      (by rw [max_eq_right (by norm_num : (0:ℚ) ≤ 2/100 - 0)]; norm_num)
    rw [h]
    norm_num
  · exact (claim5_stop_commits_final_segment [] true 0 0 (1/200)).2.mpr
      (by rw [max_eq_right (by norm_num : (0:ℚ) ≤ 1/200 - 0)]; norm_num)

/-- Claim C6: for all text and speed in [5, 40], the synthesized interval
sequence strictly alternates on/off state, is chronologically contiguous
starting from time 0, and its final interval ends exactly at the sequence's
total duration. -/

theorem claim6_ideal_timing_invariants (text : List Char) (wpm : ℚ)
    (_h5 : 5 ≤ wpm) (_h40 : wpm ≤ 40) :
    Alternating (textToIdealTiming text wpm) ∧
    Contiguous (textToIdealTiming text wpm) ∧
    (∀ a, (textToIdealTiming text wpm).head? = some a → a.startTime = 0) ∧
    ∀ b, (textToIdealTiming text wpm).getLast? = some b →
      b.startTime + b.duration = totalDuration (textToIdealTiming text wpm) := by
  have hinit : TimingInv [] 0 := by
    unfold TimingInv
    refine ⟨List.chain'_nil, List.chain'_nil, ?_, fun _ => rfl, ?_⟩ <;>
      exact fun a ha => by simp at ha
  have hOT : OffTail (calculateDotLength wpm / 1000) [] :=
    fun b hb => by simp at hb
  have h := timingLoop_spec (calculateDotLength wpm / 1000)
    (cleanText text) [] 0 hinit hOT
  obtain ⟨⟨hA, hC, hH, hE, hLa⟩, hOT'⟩ := h
  refine ⟨hA, hC, fun a ha => (hH a ha).2, ?_⟩
  intro b hb
  have hne : (textToIdealTiming text wpm).head? ≠ none := by
    intro hnil
    rw [List.head?_eq_none_iff] at hnil
    rw [hnil] at hb
    simp at hb
  rcases hx : (textToIdealTiming text wpm).head? with _ | a
  · exact absurd hx hne
  · have hct := contiguous_totalDuration hC a hx b hb
    rw [hct, (hH a hx).2, zero_add]
    rfl

/-- Claim C6 witness: the invariants hold for the text `"K"` at 12 wpm. -/

theorem claim6_ideal_timing_invariants_witness :
    Alternating (textToIdealTiming ['K'] 12) ∧
    Contiguous (textToIdealTiming ['K'] 12) ∧
    (∀ a, (textToIdealTiming ['K'] 12).head? = some a → a.startTime = 0) ∧
    ∀ b, (textToIdealTiming ['K'] 12).getLast? = some b →
      b.startTime + b.duration = totalDuration (textToIdealTiming ['K'] 12) :=
  claim6_ideal_timing_invariants ['K'] 12 (by norm_num) (by norm_num)

/-- Claim C7: `textToIdealTiming "E E" wpm` contains exactly one OFF
interval between the two letters' ON intervals, of duration exactly
`7 × unit` with `unit = 1.2 / wpm` seconds — a single merged gap, not
separate 3u and 4u OFF intervals. -/

theorem claim7_word_gap_merged_seven_units (wpm : ℚ) :
    textToIdealTiming ['E', ' ', 'E'] wpm =
      [⟨0, 12 / 10 / wpm, true⟩,
       ⟨12 / 10 / wpm, 7 * (12 / 10 / wpm), false⟩,
       ⟨8 * (12 / 10 / wpm), 12 / 10 / wpm, true⟩,
       ⟨9 * (12 / 10 / wpm), 3 * (12 / 10 / wpm), false⟩] := by
  have h0 : textToIdealTiming ['E', ' ', 'E'] wpm =
      [⟨0, 1200 / wpm / 1000, true⟩,
       ⟨0 + 1200 / wpm / 1000, 3 * (1200 / wpm / 1000) + 4 * (1200 / wpm / 1000), false⟩,
       ⟨0 + 1200 / wpm / 1000 + 3 * (1200 / wpm / 1000) + 4 * (1200 / wpm / 1000),
        1200 / wpm / 1000, true⟩,
       ⟨0 + 1200 / wpm / 1000 + 3 * (1200 / wpm / 1000) + 4 * (1200 / wpm / 1000) +
          1200 / wpm / 1000, 3 * (1200 / wpm / 1000), false⟩] := rfl
  rw [h0]
  norm_num [SignalInterval.mk.injEq]
  ring_nf
  norm_num

/-- Claim C8: if either sequence has no ON interval the alignment is empty;
otherwise every displayed interval's start is shifted by
`idealFirstOn.startTime − capturedFirstOn.startTime`, durations and states
unchanged. -/

theorem claim8_alignment_shift (idealSignals displaySignals : List SignalInterval) :
    (idealSignals.find? (·.state) = none ∨
        displaySignals.find? (·.state) = none →
      alignSignals idealSignals displaySignals = []) ∧
    ∀ fi fu, idealSignals.find? (·.state) = some fi →
      displaySignals.find? (·.state) = some fu →
      ∀ i : ℕ, (alignSignals idealSignals displaySignals)[i]? =
        (displaySignals[i]?).map fun s =>
          ⟨s.startTime + (fi.startTime - fu.startTime), s.duration, s.state⟩ := by
  constructor
  · intro h
    unfold alignSignals
    rcases hI : idealSignals.find? (·.state) with _ | fi
    all_goals rcases hU : displaySignals.find? (·.state) with _ | fu
    all_goals rw [hI, hU]
    rcases h with h | h
    · rw [hI] at h
      exact absurd h (by simp)
    · rw [hU] at h
      exact absurd h (by simp)
  · intro fi fu hfi hfu i
    unfold alignSignals
    rw [hfi, hfu]
    simp

/-- Claim C8 witness: first ideal ON at 2.0 s, first captured ON at 0.5 s:
every captured interval is shifted by exactly +1.5 s. -/

theorem claim8_alignment_shift_witness :
    (alignSignals [⟨2, 1, true⟩] [⟨1/2, 3/10, true⟩, ⟨4/5, 1/5, false⟩])[0]? =
      some ⟨2, 3/10, true⟩ ∧
    (alignSignals [⟨2, 1, true⟩] [⟨1/2, 3/10, true⟩, ⟨4/5, 1/5, false⟩])[1]? =
      some ⟨23/10, 1/5, false⟩ := by
  have h := (claim8_alignment_shift [⟨2, 1, true⟩] [⟨1/2, 3/10, true⟩, ⟨4/5, 1/5, false⟩]).2
    ⟨2, 1, true⟩ ⟨1/2, 3/10, true⟩ rfl rfl
  constructor
  · rw [h 0]
    norm_num
  · rw [h 1]
    norm_num

/-- Claim C9: `detectCommand` at the default command character `'K'` returns
true if and only if the signal list has at least three ON intervals and,
among the last three ON intervals in order, the first and third are longer
than `2 × unit` while the middle one is shorter than `2 × unit`, with
`unit = 1.2 / wpm` seconds. -/

theorem claim9_detect_command_characterization (signals : List SignalInterval) (wpm : ℚ) :
    detectCommand signals wpm 'K' = true ↔
      ∃ a b c rest, (signals.filter (·.state)).reverse = c :: b :: a :: rest ∧
        a.duration > 2 * (12 / 10 / wpm) ∧
        b.duration < 2 * (12 / 10 / wpm) ∧
        c.duration > 2 * (12 / 10 / wpm) := by
  have hu : calculateDotLength wpm / 1000 * 2 = 2 * (12 / 10 / wpm) := by
    unfold calculateDotLength
    ring
  constructor
  · intro h
    unfold detectCommand at h
    by_cases h3 : signals.length < 3
    · rw [if_pos h3] at h
      exact absurd h (by simp)
    · rw [if_neg h3] at h
      dsimp only at h
      by_cases h4 : (signals.filter (·.state)).length < 3
      · rw [if_pos h4] at h
        exact absurd h (by simp)
      · rw [if_neg h4] at h
        push_neg at h4
        rcases hrev : (signals.filter (·.state)).reverse
          with _ | ⟨c, _ | ⟨b, _ | ⟨a, rest⟩⟩⟩
        · have hl : (signals.filter (·.state)).length = 0 := by
            rw [← List.length_reverse, hrev]
            rfl
          omega
        · have hl : (signals.filter (·.state)).length = 1 := by
            rw [← List.length_reverse, hrev]
            rfl
          omega
        · have hl : (signals.filter (·.state)).length = 2 := by
            rw [← List.length_reverse, hrev]
            rfl
          omega
        · have hos2 : signals.filter (·.state) = rest.reverse ++ [a, b, c] := by
            have hx := congrArg List.reverse hrev
            rw [List.reverse_reverse] at hx
            rw [hx]
            simp
          have hdrop : (signals.filter (·.state)).drop
              ((signals.filter (·.state)).length - 3) = [a, b, c] := by
            rw [hos2]
            have hlen : (rest.reverse ++ [a, b, c]).length = rest.reverse.length + 3 := by
              simp
            rw [hlen, Nat.add_sub_cancel, List.drop_left]
          rw [hdrop] at h
          dsimp only at h
          by_cases hco : MORSE_MAP 'K' = some ['-', '.', '-'] ∧
              a.duration > calculateDotLength wpm / 1000 * 2 ∧
              b.duration < calculateDotLength wpm / 1000 * 2 ∧
              c.duration > calculateDotLength wpm / 1000 * 2
          · refine ⟨a, b, c, rest, hrev, ?_, ?_, ?_⟩
            · rw [← hu]
              exact hco.2.1
            · rw [← hu]
              exact hco.2.2.1
            · rw [← hu]
              exact hco.2.2.2
          · rw [if_neg hco] at h
            exact absurd h (by simp)
  · intro hex
    obtain ⟨a, b, c, rest, hrev, ha, hb, hc⟩ := hex
    have hos2 : signals.filter (·.state) = rest.reverse ++ [a, b, c] := by
      have hx := congrArg List.reverse hrev
      rw [List.reverse_reverse] at hx
      rw [hx]
      simp
    have hlen3 : 3 ≤ (signals.filter (·.state)).length := by
      rw [hos2]
      simp
    have hsig : ¬signals.length < 3 := by
      have hle := List.length_filter_le (·.state) signals
      omega
    have hdrop : (signals.filter (·.state)).drop
        ((signals.filter (·.state)).length - 3) = [a, b, c] := by
      rw [hos2]
      have hlen : (rest.reverse ++ [a, b, c]).length = rest.reverse.length + 3 := by
        simp
      rw [hlen, Nat.add_sub_cancel, List.drop_left]
    unfold detectCommand
    rw [if_neg hsig]
    dsimp only
    rw [if_neg (by omega), hdrop]
    dsimp only
    rw [if_pos ⟨rfl, by rw [hu]; exact ha, by rw [hu]; exact hb,
      by rw [hu]; exact hc⟩]

/-- Claim C9 witness: a dah/dit/dah tail (0.3 s / 0.1 s / 0.3 s at 12 wpm,
unit 0.1 s) is recognized. -/

theorem claim9_detect_command_characterization_witness :
    detectCommand [⟨0, 3/10, true⟩, ⟨3/10, 1/10, false⟩, ⟨2/5, 1/10, true⟩,
      ⟨1/2, 1/10, false⟩, ⟨3/5, 3/10, true⟩] 12 'K' = true := by
  rw [claim9_detect_command_characterization]
  refine ⟨⟨0, 3/10, true⟩, ⟨2/5, 1/10, true⟩, ⟨3/5, 3/10, true⟩, [], ?_, ?_, ?_, ?_⟩
  · rfl
  · norm_num
  · norm_num
  · norm_num

/-- Claim C10: a non-empty synthesized sequence starts with an ON interval
at time exactly 0, and ends with an OFF interval of duration `3u + 4u·k`
for some `k ≥ 0` (the trailing inter-character gap, extended by trailing
word spaces). -/

theorem claim10_ideal_timing_endpoints (text : List Char) (wpm : ℚ)
    (hne : textToIdealTiming text wpm ≠ []) :
    (∃ a, (textToIdealTiming text wpm).head? = some a ∧
      a.state = true ∧ a.startTime = 0) ∧
    ∃ b, (textToIdealTiming text wpm).getLast? = some b ∧
      b.state = false ∧ ∃ k : ℕ,
        b.duration = 3 * (calculateDotLength wpm / 1000) +
          4 * (calculateDotLength wpm / 1000) * (k : ℚ) := by
  have hinit : TimingInv [] 0 := by
    unfold TimingInv
    refine ⟨List.chain'_nil, List.chain'_nil, ?_, fun _ => rfl, ?_⟩ <;>
      exact fun a ha => by simp at ha
  have hOT : OffTail (calculateDotLength wpm / 1000) [] :=
    fun b hb => by simp at hb
  have h := timingLoop_spec (calculateDotLength wpm / 1000)
    (cleanText text) [] 0 hinit hOT
  obtain ⟨⟨hA, hC, hH, hE, hLa⟩, hOT'⟩ := h
  constructor
  · rcases hx : (textToIdealTiming text wpm).head? with _ | a
    · rw [List.head?_eq_none_iff] at hx
      exact absurd hx hne
    · exact ⟨a, rfl, hH a hx⟩
  · rcases hx : (textToIdealTiming text wpm).getLast? with _ | b
    · rw [List.getLast?_eq_none_iff] at hx
      exact absurd hx hne
    · exact ⟨b, rfl, (hOT' b hx).1, (hOT' b hx).2⟩

/-- Claim C10 witness: the endpoints hold for the text `"E"` at 12 wpm. -/

theorem claim10_ideal_timing_endpoints_witness :
    (∃ a, (textToIdealTiming ['E'] 12).head? = some a ∧
      a.state = true ∧ a.startTime = 0) ∧
    ∃ b, (textToIdealTiming ['E'] 12).getLast? = some b ∧
      b.state = false ∧ ∃ k : ℕ,
        b.duration = 3 * (calculateDotLength 12 / 1000) +
          4 * (calculateDotLength 12 / 1000) * (k : ℚ) :=
  claim10_ideal_timing_endpoints ['E'] 12 (by
    intro hcon
    rw [show textToIdealTiming ['E'] 12 =
      [⟨0, calculateDotLength 12 / 1000, true⟩,
       ⟨0 + calculateDotLength 12 / 1000,
        3 * (calculateDotLength 12 / 1000), false⟩] from rfl] at hcon
    exact List.noConfusion hcon)

end CWFistcheck
